import Mathlib

/-!
Shallow embedding of the algorithmic core of `src/experiment.js`:
the hand-rolled CSV parser, the seeded randomization pipeline
(`xmur3` string hash, `mulberry32` generator, Fisher-Yates shuffles),
the narration-table decoding (`loadNarrationsCSV`, minus the network
fetch), and the session-plan slicing from `main`.

Strings are modelled as `List Char`; for the string hash, as lists of
UTF-16 code units (`List Nat`).  JavaScript 32-bit integer coercions
(`|`, `^`, `>>>`, `<<`, `Math.imul`) are modelled on `Nat` with explicit
reduction modulo `2 ^ 32`, working throughout with the unsigned bit
pattern of the JavaScript value.  `Math.random()` is modelled by an
arbitrary draw function `jdraw : Nat -> Nat` giving, for each loop index
`i`, the value `floor(Math.random() * (i + 1))` drawn at that index.
-/

set_option maxRecDepth 8000

/-- `2 ^ 32`, the modulus of JavaScript 32-bit integer coercions. -/
def M32 : Nat := 4294967296

theorem M32_eq_pow : M32 = 2 ^ 32 := rfl

theorem M32_pos : 0 < M32 := by decide

/-- One step of the `mulberry32` generator (`src/experiment.js` lines
112-119).  Input is the current state `a` (unsigned bit pattern); the
result is the pair (new state, output numerator `k`): the JavaScript
call returns the float `k / 4294967296`. -/
def mulberryStep (a : Nat) : Nat × Nat :=
  let a2 := (a + 0x6D2B79F5) % M32
  let t2 := ((a2 ^^^ (a2 >>> 15)) * (a2 ||| 1)) % M32
  let t3 := t2 ^^^ ((t2 + ((t2 ^^^ (t2 >>> 7)) * (t2 ||| 61)) % M32) % M32)
  (a2, t3 ^^^ (t3 >>> 14))

/-- One iteration of the `xmur3` accumulation loop
(`src/experiment.js` lines 102-105): mix one UTF-16 code unit `c` into
the running hash `h`. -/
def xmur3Mix (h : Nat) (c : Nat) : Nat :=
  let h1 := ((h ^^^ (c % M32)) * 3432918353) % M32
  ((h1 <<< 13) % M32) ||| (h1 >>> 19)

/-- The `xmur3` accumulation loop over the whole key. -/
def xmur3Core (h : Nat) : List Nat → Nat
  | [] => h
  | c :: cs => xmur3Core (xmur3Mix h c) cs

/-- `xmur3(str)()`: hash the key string (as UTF-16 code units) and take
the first output of the returned closure (`src/experiment.js` lines
100-111, used at line 130).  This is the seed fed to `mulberry32`. -/
def xmur3 (s : List Nat) : Nat :=
  let h := xmur3Core ((1779033703 : Nat) ^^^ (s.length % M32)) s
  let h1 := ((h ^^^ (h >>> 16)) * 2246822507) % M32
  let h2 := ((h1 ^^^ (h1 >>> 13)) * 3266489909) % M32
  h2 ^^^ (h2 >>> 16)

/-- The JavaScript destructuring swap `[a[i], a[j]] = [a[j], a[i]]`
(lines 124 and 135): exchange the entries at positions `i` and `j`.
Both indices are in range whenever the shuffles call it; the
out-of-range arm makes the Lean function total. -/
def swapIdx {α : Type} (a : List α) (i j : Nat) : List α :=
  match a[i]?, a[j]? with
  | some x, some y => (a.set i y).set j x
  | _, _ => a

/-- The unseeded Fisher-Yates loop of `shuffle` (lines 122-125),
counting the loop index `i` down to `0` (the body runs only while
`i > 0`).  `jdraw i` models `Math.floor(Math.random() * (i + 1))`. -/
def shuffleAux {α : Type} (jdraw : Nat → Nat) (a : List α) : Nat → List α
  | 0 => a
  | i + 1 => shuffleAux jdraw (swapIdx a (i + 1) (jdraw (i + 1))) i

/-- `shuffle(array)` (lines 120-127): copy the array and run the
Fisher-Yates loop from `length - 1` down to `1` with `Math.random`. -/
def shuffle {α : Type} (jdraw : Nat → Nat) (a : List α) : List α :=
  shuffleAux jdraw a (a.length - 1)

/-- The seeded Fisher-Yates loop of `seededShuffle` (lines 133-136):
at index `i` draw `j = floor(rand() * (i + 1))` from the `mulberry32`
stream (exactly `k * (i + 1) / 2 ^ 32` on the output numerator `k`) and
swap positions `i` and `j`, threading the generator state. -/
def seededFyAux {α : Type} : Nat → Nat → List α → List α
  | 0, _, a => a
  | i + 1, st, a =>
    seededFyAux i (mulberryStep st).1
      (swapIdx a (i + 1) ((mulberryStep st).2 * (i + 1 + 1) / M32))

/-- `seededShuffle(array, seedStr)` (lines 128-138): an empty (falsy)
key takes the unseeded `shuffle` branch; otherwise seed `mulberry32`
with `xmur3(seedStr)()` and run the same Fisher-Yates loop on a copy. -/
def seededShuffle {α : Type} (jdraw : Nat → Nat) (a : List α)
    (seedStr : List Nat) : List α :=
  if seedStr = [] then shuffle jdraw a
  else seededFyAux (a.length - 1) (xmur3 seedStr) a

theorem mulberryStep_out_lt (st : Nat) : (mulberryStep st).2 < M32 := by
  simp only [mulberryStep]
  have h2 : ((((st + 0x6D2B79F5) % M32) ^^^ (((st + 0x6D2B79F5) % M32) >>> 15)) *
      (((st + 0x6D2B79F5) % M32) ||| 1)) % M32 < M32 := Nat.mod_lt _ M32_pos
  set t2 := ((((st + 0x6D2B79F5) % M32) ^^^ (((st + 0x6D2B79F5) % M32) >>> 15)) *
      (((st + 0x6D2B79F5) % M32) ||| 1)) % M32 with ht2
  have h3 : t2 ^^^ ((t2 + ((t2 ^^^ (t2 >>> 7)) * (t2 ||| 61)) % M32) % M32) < M32 := by
    rw [M32_eq_pow]
    exact Nat.xor_lt_two_pow (M32_eq_pow ▸ h2) (M32_eq_pow ▸ Nat.mod_lt _ M32_pos)
  set t3 := t2 ^^^ ((t2 + ((t2 ^^^ (t2 >>> 7)) * (t2 ||| 61)) % M32) % M32) with ht3
  have h4 : t3 >>> 14 ≤ t3 := by
    rw [Nat.shiftRight_eq_div_pow]
    exact Nat.div_le_self _ _
  rw [M32_eq_pow]
  exact Nat.xor_lt_two_pow (M32_eq_pow ▸ h3) (M32_eq_pow ▸ Nat.lt_of_le_of_lt h4 h3)

theorem mulberry_j_le (st i : Nat) : (mulberryStep st).2 * (i + 1) / M32 ≤ i := by
  have hk : (mulberryStep st).2 < M32 := mulberryStep_out_lt st
  have h1 : (mulberryStep st).2 * (i + 1) < (i + 1) * M32 := by
    rw [Nat.mul_comm (i + 1) M32]
    exact Nat.mul_lt_mul_of_lt_of_le hk (Nat.le_refl _) (Nat.succ_pos i)
  exact Nat.lt_succ_iff.mp ((Nat.div_lt_iff_lt_mul M32_pos).mpr h1)

theorem getSet_cons_perm {α : Type} :
    ∀ (u : Nat) (t : List α) (y x : α), t[u]? = some y →
      List.Perm (y :: t.set u x) (x :: t) := by
  intro u t
  induction t generalizing u with
  | nil => intro y x h; simp at h
  | cons b bs ih =>
    intro y x h
    cases u with
    | zero =>
      simp only [List.getElem?_cons_zero, Option.some.injEq] at h
      subst h
      simpa using List.Perm.swap x b bs
    | succ u =>
      simp only [List.getElem?_cons_succ] at h
      have step : List.Perm (y :: b :: bs.set u x) (b :: y :: bs.set u x) :=
        List.Perm.swap b y _
      refine List.Perm.trans ?_ (List.Perm.swap x b bs)
      exact List.Perm.trans step (List.Perm.cons b (ih u y x h))

theorem set_set_perm {α : Type} :
    ∀ (a : List α) (i j : Nat) (x y : α), a[i]? = some x → a[j]? = some y →
      List.Perm ((a.set i y).set j x) a := by
  intro a
  induction a with
  | nil => intro i j x y hx _; simp at hx
  | cons b bs ih =>
    intro i j x y hx hy
    cases i with
    | zero =>
      simp only [List.getElem?_cons_zero, Option.some.injEq] at hx
      subst hx
      cases j with
      | zero =>
        simp only [List.getElem?_cons_zero, Option.some.injEq] at hy
        subst hy
        simp
      | succ u =>
        simp only [List.getElem?_cons_succ] at hy
        simpa using getSet_cons_perm u bs y b hy
    | succ s =>
      simp only [List.getElem?_cons_succ] at hx
      cases j with
      | zero =>
        simp only [List.getElem?_cons_zero, Option.some.injEq] at hy
        subst hy
        simpa using getSet_cons_perm s bs x b hx
      | succ u =>
        simp only [List.getElem?_cons_succ] at hy
        simpa using List.Perm.cons b (ih s u x y hx hy)

theorem swapIdx_perm {α : Type} (a : List α) (i j : Nat) :
    List.Perm (swapIdx a i j) a := by
  unfold swapIdx
  cases hx : a[i]? with
  | none => exact List.Perm.refl a
  | some x =>
    cases hy : a[j]? with
    | none => exact List.Perm.refl a
    | some y => exact set_set_perm a i j x y hx hy

theorem shuffleAux_perm {α : Type} (jdraw : Nat → Nat) :
    ∀ (n : Nat) (a : List α), List.Perm (shuffleAux jdraw a n) a := by
  intro n
  induction n with
  | zero => intro a; exact List.Perm.refl a
  | succ i ih =>
    intro a
    exact List.Perm.trans (ih _) (swapIdx_perm a (i + 1) (jdraw (i + 1)))

theorem seededFyAux_perm {α : Type} :
    ∀ (n st : Nat) (a : List α), List.Perm (seededFyAux n st a) a := by
  intro n
  induction n with
  | zero => intro st a; exact List.Perm.refl a
  | succ i ih =>
    intro st a
    exact List.Perm.trans (ih _ _) (swapIdx_perm a (i + 1) _)

/-- C1: with a fixed non-empty Sequencing Key and fixed input, the output
of `seededShuffle` does not depend on the non-deterministic `Math.random`
draws at all — two independent invocations (modelled by two arbitrary
draw functions `d1`, `d2`) return exactly the same ordering, which is a
pure function of the key and the input list. -/
theorem c1_seeded_shuffle_reproducible (α : Type) (d1 d2 : Nat → Nat)
    (a : List α) (key : List Nat) (h : key ≠ []) :
    seededShuffle d1 a key = seededShuffle d2 a key := by
  unfold seededShuffle
  rw [if_neg h, if_neg h]

theorem c1_witness :
    seededShuffle (fun _ => 0) ([0, 1, 2] : List Nat) [104, 105] =
      seededShuffle (fun i => i) ([0, 1, 2] : List Nat) [104, 105] :=
  c1_seeded_shuffle_reproducible Nat (fun _ => 0) (fun i => i) [0, 1, 2]
    [104, 105] (by decide)

/-- C2: with a Sequencing Key supplied (non-empty), the shuffle is exactly
the specified Fisher-Yates variant: every `mulberry32` output numerator
`k` satisfies `k < 2 ^ 32` (so `rand() = k / 2 ^ 32` lies in `[0, 1)`),
the drawn index `j = floor(rand() * (i + 1)) = k * (i + 1) / 2 ^ 32`
satisfies `j ≤ i`, and `seededShuffle` runs the loop from `length - 1`
down to `1`, at each index swapping positions `i` and `j` and threading
the deterministic `mulberry32` state. -/
theorem c2_seeded_fisher_yates :
    (∀ st : Nat, (mulberryStep st).2 < M32) ∧
    (∀ st i : Nat, (mulberryStep st).2 * (i + 1) / M32 ≤ i) ∧
    (∀ (α : Type) (d : Nat → Nat) (a : List α) (key : List Nat), key ≠ [] →
      seededShuffle d a key = seededFyAux (a.length - 1) (xmur3 key) a) ∧
    (∀ (α : Type) (st : Nat) (a : List α) (i : Nat),
      seededFyAux (i + 1) st a =
        seededFyAux i (mulberryStep st).1
          (swapIdx a (i + 1) ((mulberryStep st).2 * (i + 1 + 1) / M32))) ∧
    (∀ (α : Type) (st : Nat) (a : List α), seededFyAux 0 st a = a) := by
  refine ⟨mulberryStep_out_lt, mulberry_j_le, ?_, ?_, ?_⟩
  · intro α d a key h
    unfold seededShuffle
    rw [if_neg h]
  · intro α st a i
    rfl
  · intro α st a
    rfl

theorem c2_witness :
    seededShuffle (fun _ => 0) ([0, 1] : List Nat) [104] =
      seededFyAux (([0, 1] : List Nat).length - 1) (xmur3 [104])
        ([0, 1] : List Nat) :=
  c2_seeded_fisher_yates.2.2.1 Nat (fun _ => 0) [0, 1] [104] (by decide)

/-- C9: for every draw function, input list and key (including the empty
key), both `shuffle` and `seededShuffle` return a permutation of the
input — same length, same elements with multiplicity, nothing lost,
duplicated or invented.  (In this pure embedding the input list itself
is untouched by construction; the source operates on `array.slice()`.) -/
theorem c9_shuffles_permute (α : Type) (jdraw : Nat → Nat) (a : List α)
    (key : List Nat) :
    List.Perm (shuffle jdraw a) a ∧ List.Perm (seededShuffle jdraw a key) a := by
  constructor
  · exact shuffleAux_perm jdraw _ a
  · unfold seededShuffle
    by_cases h : key = []
    · rw [if_pos h]
      exact shuffleAux_perm jdraw _ a
    · rw [if_neg h]
      exact seededFyAux_perm _ _ a

/-- C10: the empty-string Sequencing Key is falsy in JavaScript, so
`seededShuffle` takes the unseeded `shuffle` branch: it behaves exactly
like an absent key, and the output then genuinely depends on the
`Math.random` draws (two different draw streams produce different
orderings on `[0, 1]`), so the reproducibility guarantee does not apply
to the key `""`. -/
theorem c10_empty_key_unseeded :
    (∀ (α : Type) (jdraw : Nat → Nat) (a : List α),
      seededShuffle jdraw a [] = shuffle jdraw a) ∧
    seededShuffle (fun _ => 0) ([0, 1] : List Nat) [] ≠
      seededShuffle (fun i => i) ([0, 1] : List Nat) [] := by
  constructor
  · intro α jdraw a
    unfold seededShuffle
    rw [if_pos rfl]
  · decide

/-- First newline-normalization pass of `parseCSV`
(`src/experiment.js` line 75): the global left-to-right replacement of
every `"\r\n"` pair by `"\n"` (`text.replace(/\r\n/g, "\n")`). -/
def stripCRLF : List Char → List Char
  | [] => []
  | [c] => [c]
  | c :: c2 :: rest =>
    if c = '\r' ∧ c2 = '\n' then '\n' :: stripCRLF rest
    else c :: stripCRLF (c2 :: rest)

/-- Second pass of line 75: replace every remaining `'\r'` by `'\n'`
(`.replace(/\r/g, "\n")`). -/
def crToLf (c : Char) : Char := if c = '\r' then '\n' else c

/-- Full newline normalization of `parseCSV` (line 75). -/
def normalizeNewlines (s : List Char) : List Char := (stripCRLF s).map crToLf

/-- The character loop of `parseCSV` (`src/experiment.js` lines 76-95),
including the end-of-input flush: the remaining input is the first
argument, then the `inQuotes` flag, the current field buffer, the
current row, and the accumulated rows. -/
def parseLoop : List Char → Bool → List Char → List (List Char) →
    List (List (List Char)) → List (List (List Char))
  | [], _, field, row, rows =>
    let row2 := row ++ [field]
    if 1 < row2.length ∨ (row2.length = 1 ∧ row2.getD 0 [] ≠ []) then
      rows ++ [row2]
    else rows
  | '"' :: '"' :: rest, true, field, row, rows =>
    parseLoop rest true (field ++ ['"']) row rows
  | '"' :: rest, true, field, row, rows =>
    parseLoop rest false field row rows
  | c :: rest, true, field, row, rows =>
    parseLoop rest true (field ++ [c]) row rows
  | '"' :: rest, false, field, row, rows =>
    parseLoop rest true field row rows
  | ',' :: rest, false, field, row, rows =>
    parseLoop rest false [] (row ++ [field]) rows
  | '\n' :: rest, false, field, row, rows =>
    parseLoop rest false [] [] (rows ++ [row ++ [field]])
  | c :: rest, false, field, row, rows =>
    parseLoop rest false (field ++ [c]) row rows

/-- `parseCSV(text)` (`src/experiment.js` lines 73-97): normalize
newlines, then run the single-pass quote-aware state machine starting
in the unquoted state with empty field, row and rows. -/
def parseCSV (text : List Char) : List (List (List Char)) :=
  parseLoop (normalizeNewlines text) false [] [] []

theorem crToLf_ne_cr (c : Char) : crToLf c ≠ '\r' := by
  unfold crToLf
  split
  · decide
  · assumption

theorem normalizeNewlines_no_cr (s : List Char) :
    ∀ c ∈ normalizeNewlines s, c ≠ '\r' := by
  intro c hc
  unfold normalizeNewlines at hc
  rcases List.mem_map.mp hc with ⟨b, _, hb⟩
  rw [← hb]
  exact crToLf_ne_cr b

theorem stripCRLF_of_no_cr : ∀ l : List Char, (∀ c ∈ l, c ≠ '\r') →
    stripCRLF l = l := by
  intro l
  induction l with
  | nil => intro _; rfl
  | cons c rest ih =>
    intro h
    cases rest with
    | nil => rfl
    | cons c2 r =>
      have hc : c ≠ '\r' := h c (by simp)
      simp only [stripCRLF]
      rw [if_neg (fun hand => hc hand.1)]
      have : stripCRLF (c2 :: r) = c2 :: r :=
        ih (fun x hx => h x (List.mem_cons_of_mem c hx))
      rw [this]

theorem map_crToLf_of_no_cr : ∀ l : List Char, (∀ c ∈ l, c ≠ '\r') →
    l.map crToLf = l := by
  intro l
  induction l with
  | nil => intro _; rfl
  | cons c rest ih =>
    intro h
    have hc : c ≠ '\r' := h c (by simp)
    simp only [List.map_cons]
    rw [ih (fun x hx => h x (List.mem_cons_of_mem c hx))]
    unfold crToLf
    rw [if_neg hc]

theorem normalizeNewlines_idem (s : List Char) :
    normalizeNewlines (normalizeNewlines s) = normalizeNewlines s := by
  have h := normalizeNewlines_no_cr s
  calc normalizeNewlines (normalizeNewlines s)
      = (stripCRLF (normalizeNewlines s)).map crToLf := rfl
    _ = (normalizeNewlines s).map crToLf := by rw [stripCRLF_of_no_cr _ h]
    _ = normalizeNewlines s := map_crToLf_of_no_cr _ h

/-- C8: decoding is invariant under newline convention — for every
input, `parseCSV` of the input equals `parseCSV` of the input with every
`"\r\n"` and every remaining `'\r'` replaced by `'\n'`, because the
parser normalizes newlines first and that normalization is idempotent. -/
theorem c8_newline_invariance (s : List Char) :
    parseCSV s = parseCSV (normalizeNewlines s) := by
  unfold parseCSV
  rw [normalizeNewlines_idem]

/-- C3: in the quoted state, a doubled double-quote is decoded as one
literal double-quote consuming both characters; a single (undoubled)
double-quote exits to the unquoted state; any other character —
including commas and newlines — is appended literally to the field
buffer; and the quoted field `"a,b\nc""d"` decodes to the single
literal value `a,b\nc"d`. -/
theorem c3_quoted_state (field : List Char) (row : List (List Char))
    (rows : List (List (List Char))) (rest : List Char) (c : Char) :
    (parseLoop ('"' :: '"' :: rest) true field row rows =
      parseLoop rest true (field ++ ['"']) row rows) ∧
    (rest.head? ≠ some '"' →
      parseLoop ('"' :: rest) true field row rows =
        parseLoop rest false field row rows) ∧
    (c ≠ '"' →
      parseLoop (c :: rest) true field row rows =
        parseLoop rest true (field ++ [c]) row rows) ∧
    parseCSV ("\"a,b\nc\"\"d\"".toList) = [["a,b\nc\"d".toList]] := by
  refine ⟨rfl, ?_, ?_, by decide⟩
  · intro h
    rw [parseLoop.eq_def]
    split <;> try simp_all
    all_goals (rename_i hne heq; exact absurd heq.1.symm hne)
  · intro h
    rw [parseLoop.eq_def]
    split <;> simp_all

theorem c3_witness :
    parseLoop ['"', 'x'] true [] [] [] = parseLoop ['x'] false [] [] [] ∧
    parseLoop ['x'] true [] [] [] = parseLoop [] true ['x'] [] [] :=
  ⟨(c3_quoted_state [] [] [] ['x'] 'x').2.1 (by decide),
   (c3_quoted_state [] [] [] [] 'x').2.2.1 (by decide)⟩

/-- C7: `parseCSV` is a total function (it is defined by structural
recursion on the input, so it terminates and cannot throw); at end of
input the pending field is always flushed into the pending row, and
that final row is emitted exactly when it has more than one field or
its single field is non-empty — hence an unterminated quoted field
still yields its accumulated content, and a trailing final newline
produces no extra empty row. -/
theorem c7_eof_flush :
    (∀ (inQuotes : Bool) (field : List Char) (row : List (List Char))
        (rows : List (List (List Char))),
      parseLoop [] inQuotes field row rows =
        if row ≠ [] ∨ field ≠ [] then rows ++ [row ++ [field]] else rows) ∧
    (∀ (field : List Char) (row : List (List Char))
        (rows : List (List (List Char))),
      parseLoop ['\n'] false field row rows = rows ++ [row ++ [field]]) ∧
    parseCSV ("\"abc".toList) = [["abc".toList]] ∧
    parseCSV ("a,b\n".toList) = parseCSV ("a,b".toList) := by
  refine ⟨?_, ?_, by decide, by decide⟩
  · intro inQuotes field row rows
    cases row with
    | nil =>
      by_cases hf : field = []
      · subst hf; simp [parseLoop]
      · simp [parseLoop, hf]
    | cons r rs =>
      have hlen : 1 < ((r :: rs) ++ [field]).length := by
        simp [List.length_append]
      simp [parseLoop, hlen]
  · intro field row rows
    rfl

/-- The ECMAScript whitespace set recognized by `String.prototype.trim`
and by `parseInt` (WhiteSpace and LineTerminator code points). -/
def jsWhitespace (c : Char) : Bool :=
  c = ' ' || c = '\t' || c = '\n' || c = '\r' || c = '\x0b' || c = '\x0c' ||
  c = ' ' || c = '﻿' || c = ' ' || c = ' ' ||
  c = ' ' || c = ' ' || c = ' ' || c = ' ' ||
  c = ' ' || c = ' ' || c = ' ' || c = ' ' ||
  c = ' ' || c = ' ' || c = ' ' || c = ' ' ||
  c = '　' || c = ' ' || c = ' '

/-- JavaScript `String.prototype.trim`: drop leading and trailing
whitespace. -/
def trimS (s : List Char) : List Char :=
  ((s.dropWhile jsWhitespace).reverse.dropWhile jsWhitespace).reverse

/-- JavaScript `String.prototype.toLowerCase`, restricted to the ASCII
range (all role-name candidates in the source are ASCII). -/
def lowerS (s : List Char) : List Char := s.map Char.toLower

/-- `headers[lower.indexOf(name)]` (`src/experiment.js` lines 157-174):
look `name` up in the lowercased headers, returning the original-case
header at the first matching index, or nothing (`undefined`) when
`indexOf` returns `-1`. -/
def headerAt (headers : List (List Char)) (name : List Char) :
    Option (List Char) :=
  match (headers.map lowerS).findIdx? (fun h => h == name) with
  | some i => headers[i]?
  | none => none

/-- The JavaScript property key `"undefined"`: when every lookup in the
`??`-chain misses and the positional fallback is out of range, the key
is `undefined` and `row[undefined]` reads property `"undefined"`. -/
def undefS : List Char := "undefined".toList

/-- `idKey` resolution (lines 158-161):
`headers[lower.indexOf("narration_id")] ?? headers[lower.indexOf("id")]
?? headers[0]`. -/
def idKeyOf (headers : List (List Char)) : List Char :=
  match headerAt headers ("narration_id".toList) with
  | some k => k
  | none =>
    match headerAt headers ("id".toList) with
    | some k => k
    | none => (headers[0]?).getD undefS

/-- `textKey` resolution (lines 162-166). -/
def textKeyOf (headers : List (List Char)) : List Char :=
  match headerAt headers ("narration_text".toList) with
  | some k => k
  | none =>
    match headerAt headers ("text".toList) with
    | some k => k
    | none =>
      match headerAt headers ("narration".toList) with
      | some k => k
      | none => (headers[1]?).getD undefS

/-- `enabledKey` resolution (lines 168-174): first of `enabled`,
`include`, `use`, `active` present in the lowercased headers; `null`
(here `none`) when none matches — no positional fallback. -/
def enabledKeyOf (headers : List (List Char)) : Option (List Char) :=
  match headerAt headers ("enabled".toList) with
  | some k => some k
  | none =>
    match headerAt headers ("include".toList) with
    | some k => some k
    | none =>
      match headerAt headers ("use".toList) with
      | some k => some k
      | none => headerAt headers ("active".toList)

/-- Building one row object (lines 151-155):
`headers.forEach((h, i) => o[h] = (r[i] ?? "").toString().trim())`.
Later assignments to a duplicate header name overwrite earlier ones,
which `objGet` models by searching the reversed list. -/
def rowObj (headers r : List (List Char)) : List (List Char × List Char) :=
  headers.enum.map (fun p => (p.2, trimS ((r[p.1]?).getD [])))

/-- Property read `row[key] || ""`: the value of the last assignment to
`key`, or the empty string when the property is absent. -/
def objGet (o : List (List Char × List Char)) (k : List Char) : List Char :=
  match o.reverse.find? (fun p => p.1 == k) with
  | some p => p.2
  | none => []

/-- `truthy(v)` (line 176): `/^(1|true|yes|y)$/i.test((v || "").trim())`. -/
def truthy (v : List Char) : Bool :=
  let t := lowerS (trimS v)
  t == "1".toList || t == "true".toList || t == "yes".toList || t == "y".toList

/-- The body of the retention loop (lines 178-184) as a fold step:
skip the row when the resolved id or text is empty, skip it when an
enabled column resolved and its value is not truthy, else push the
(id, text) record. -/
def pushRow (idKey textKey : List Char) (enabledKey : Option (List Char))
    (out : List (List Char × List Char)) (row : List (List Char × List Char)) :
    List (List Char × List Char) :=
  let nid := trimS (objGet row idKey)
  let ntext := trimS (objGet row textKey)
  if nid = [] ∨ ntext = [] then out
  else
    match enabledKey with
    | some ek => if truthy (objGet row ek) then out ++ [(nid, ntext)] else out
    | none => out ++ [(nid, ntext)]

/-- The retention loop of `loadNarrationsCSV` (lines 177-185). -/
def filterRows (idKey textKey : List Char) (enabledKey : Option (List Char))
    (arr : List (List (List Char × List Char))) :
    List (List Char × List Char) :=
  arr.foldl (pushRow idKey textKey enabledKey) []

/-- `loadNarrationsCSV` minus the network fetch (lines 145-185): parse
the text, require at least a header row and one data row, trim the
headers, build the row objects, resolve the column roles and filter. -/
def narrationsFromText (text : List Char) : List (List Char × List Char) :=
  let rows := parseCSV text
  if rows.length < 2 then []
  else
    let headers := (rows.getD 0 []).map trimS
    let arr := rows.tail.map (rowObj headers)
    filterRows (idKeyOf headers) (textKeyOf headers) (enabledKeyOf headers) arr

/-- Spec-side description of role resolution (spec §3 "Column Mapping"
and §9): an explicit ordered-candidate lookup — first candidate name
with a case-insensitive match wins, else the positional fallback when
the role has one.  Stated from the spec's words, to be compared with
the chained-fallback expressions embedded from the source. -/
def specResolveRole (headers : List (List Char)) (cands : List (List Char))
    (fallback : Option Nat) : Option (List Char) :=
  match cands with
  | [] =>
    match fallback with
    | some i => headers[i]?
    | none => none
  | c :: cs =>
    match headerAt headers c with
    | some k => some k
    | none => specResolveRole headers cs fallback

/-- C5: the source's chained `??` role resolution equals the spec's
ordered-candidate lookup: `id` tries `narration_id`, then `id`, then
column 0; `text` tries `narration_text`, `text`, `narration`, then
column 1; `enabled` tries `enabled`, `include`, `use`, `active` with no
positional fallback.  Matching is case-insensitive on the trimmed
headers and the first match wins, as the three concrete instances show. -/
theorem c5_role_resolution (headers : List (List Char)) :
    (idKeyOf headers = (specResolveRole headers
      ["narration_id".toList, "id".toList] (some 0)).getD undefS) ∧
    (textKeyOf headers = (specResolveRole headers
      ["narration_text".toList, "text".toList, "narration".toList]
      (some 1)).getD undefS) ∧
    (enabledKeyOf headers = specResolveRole headers
      ["enabled".toList, "include".toList, "use".toList, "active".toList]
      none) ∧
    idKeyOf ["Narration_ID".toList, "x".toList] = "Narration_ID".toList ∧
    idKeyOf ["id".toList, "narration_id".toList] = "narration_id".toList ∧
    enabledKeyOf ["a".toList, "b".toList] = none := by
  refine ⟨?_, ?_, ?_, by decide, by decide, by decide⟩
  · cases h1 : headerAt headers ("narration_id".toList) with
    | some k => simp only [idKeyOf, specResolveRole, h1, Option.getD_some]
    | none =>
      cases h2 : headerAt headers ("id".toList) with
      | some k => simp only [idKeyOf, specResolveRole, h1, h2, Option.getD_some]
      | none => simp only [idKeyOf, specResolveRole, h1, h2]
  · cases h1 : headerAt headers ("narration_text".toList) with
    | some k => simp only [textKeyOf, specResolveRole, h1, Option.getD_some]
    | none =>
      cases h2 : headerAt headers ("text".toList) with
      | some k => simp only [textKeyOf, specResolveRole, h1, h2, Option.getD_some]
      | none =>
        cases h3 : headerAt headers ("narration".toList) with
        | some k =>
          simp only [textKeyOf, specResolveRole, h1, h2, h3, Option.getD_some]
        | none => simp only [textKeyOf, specResolveRole, h1, h2, h3]
  · cases h1 : headerAt headers ("enabled".toList) with
    | some k => simp only [enabledKeyOf, specResolveRole, h1]
    | none =>
      cases h2 : headerAt headers ("include".toList) with
      | some k => simp only [enabledKeyOf, specResolveRole, h1, h2]
      | none =>
        cases h3 : headerAt headers ("use".toList) with
        | some k => simp only [enabledKeyOf, specResolveRole, h1, h2, h3]
        | none =>
          simp only [enabledKeyOf, specResolveRole, h1, h2, h3]
          cases headerAt headers ("active".toList) <;> rfl

/-- Spec-side retention rule (spec §4.1 "Filtering"): a row is kept
exactly when its resolved id and text are non-empty after trimming and,
when an enabled role resolved, that field's value is truthy; the kept
record is the (id, text) pair. -/
def keepRecord (idKey textKey : List Char) (enabledKey : Option (List Char))
    (row : List (List Char × List Char)) : Option (List Char × List Char) :=
  if trimS (objGet row idKey) ≠ [] ∧ trimS (objGet row textKey) ≠ [] ∧
      (match enabledKey with
       | some ek => truthy (objGet row ek)
       | none => true) = true then
    some (trimS (objGet row idKey), trimS (objGet row textKey))
  else none

theorem pushRow_split (ik tk : List Char) (ek : Option (List Char))
    (out row : _) :
    pushRow ik tk ek out row = out ++ pushRow ik tk ek [] row := by
  simp only [pushRow]
  by_cases h : trimS (objGet row ik) = [] ∨ trimS (objGet row tk) = []
  · simp [h]
  · simp only [if_neg h]
    cases ek with
    | none => simp
    | some e => by_cases ht : truthy (objGet row e) <;> simp [ht]

theorem foldl_pushRow (ik tk : List Char) (ek : Option (List Char)) :
    ∀ (arr : List (List (List Char × List Char))) (out : _),
      arr.foldl (pushRow ik tk ek) out =
        out ++ arr.foldl (pushRow ik tk ek) [] := by
  intro arr
  induction arr with
  | nil => intro out; simp
  | cons r rs ih =>
    intro out
    simp only [List.foldl_cons]
    rw [ih (pushRow ik tk ek out r), ih (pushRow ik tk ek [] r),
      pushRow_split ik tk ek out r, List.append_assoc]

theorem pushRow_nil (ik tk : List Char) (ek : Option (List Char)) (row : _) :
    pushRow ik tk ek [] row = (keepRecord ik tk ek row).toList := by
  by_cases h1 : trimS (objGet row ik) = []
  · simp [pushRow, keepRecord, h1]
  by_cases h2 : trimS (objGet row tk) = []
  · simp [pushRow, keepRecord, h1, h2]
  cases ek with
  | none => simp [pushRow, keepRecord, h1, h2]
  | some e =>
    by_cases ht : truthy (objGet row e) = true <;>
      simp [pushRow, keepRecord, h1, h2, ht]

/-- C4: a decoded data row is retained in the output if and only if its
resolved id and text are both non-empty after trimming and, when an
enabled role resolved, the enabled field matches the case-insensitive
truthy pattern `1`, `true`, `yes`, `y` — the retention loop equals a
`filterMap` by exactly that rule; rows with enabled values `no`, `0`,
`false` or empty are dropped, and an end-to-end instance keeps only the
fully well-formed, enabled row. -/
theorem c4_row_retention (idKey textKey : List Char)
    (enabledKey : Option (List Char))
    (arr : List (List (List Char × List Char))) :
    filterRows idKey textKey enabledKey arr =
      arr.filterMap (keepRecord idKey textKey enabledKey) ∧
    truthy ("1".toList) = true ∧ truthy ("true".toList) = true ∧
    truthy ("YES".toList) = true ∧ truthy ("y".toList) = true ∧
    truthy ("no".toList) = false ∧ truthy ("0".toList) = false ∧
    truthy ("false".toList) = false ∧ truthy [] = false ∧
    narrationsFromText
        ("narration_id,narration_text,enabled\nN1,Hello,yes\nN2,World,no\nN3,,1".toList) =
      [("N1".toList, "Hello".toList)] := by
  refine ⟨?_, by decide, by decide, by decide, by decide, by decide, by decide,
    by decide, by decide, by decide⟩
  induction arr with
  | nil => rfl
  | cons r rs ih =>
    have step : filterRows idKey textKey enabledKey (r :: rs) =
        pushRow idKey textKey enabledKey [] r ++
          filterRows idKey textKey enabledKey rs := by
      unfold filterRows
      rw [List.foldl_cons, foldl_pushRow]
    rw [step, ih, List.filterMap_cons, pushRow_nil]
    cases keepRecord idKey textKey enabledKey r <;> simp

/-- Value of a string of decimal digits. -/
def digitsToNat (ds : List Char) : Nat :=
  ds.foldl (fun n c => n * 10 + (c.toNat - '0'.toNat)) 0

/-- `parseInt(s, 10)` (`src/experiment.js` line 252): skip leading
whitespace, accept an optional sign, then parse the longest leading run
of decimal digits (trailing garbage is ignored); `NaN` (here `none`)
when no digit follows.  Exact-integer model: the float rounding JS
applies to astronomically long digit strings is not modelled. -/
def jsParseInt (s : List Char) : Option Int :=
  match s.dropWhile jsWhitespace with
  | '-' :: r =>
    let ds := r.takeWhile Char.isDigit
    if ds = [] then none else some (-(digitsToNat ds : Int))
  | '+' :: r =>
    let ds := r.takeWhile Char.isDigit
    if ds = [] then none else some ((digitsToNat ds : Int))
  | t =>
    let ds := t.takeWhile Char.isDigit
    if ds = [] then none else some ((digitsToNat ds : Int))

/-- The target-count logic of `main` (lines 250-254): `target` starts at
`Infinity` (`none`); when the lowercased `n` parameter is non-empty and
not `"all"`, parse it, and when the result is a number greater than `0`
use it as the target. -/
def targetOf (nParam : List Char) : Option Nat :=
  if nParam ≠ [] ∧ nParam ≠ "all".toList then
    match jsParseInt nParam with
    | some n => if 0 < n then some n.toNat else none
    | none => none
  else none

/-- `ordered.slice(0, Math.min(target, totalAvailable))` (line 255):
the Session Plan is the first `min(target, length)` elements of the
shuffled table; an unbounded target (`Infinity`) means the whole
table. -/
def sessionPlan {α : Type} (ordered : List α) (nParam : List Char) : List α :=
  match targetOf nParam with
  | some t => ordered.take (min t ordered.length)
  | none => ordered.take ordered.length

theorem targetOf_none_full {α : Type} (ordered : List α) (nParam : List Char)
    (h : targetOf nParam = none) : sessionPlan ordered nParam = ordered := by
  simp [sessionPlan, h]

theorem targetOf_some_take {α : Type} (ordered : List α) (nParam : List Char)
    (t : Nat) (h : targetOf nParam = some t) :
    sessionPlan ordered nParam = ordered.take (min t ordered.length) := by
  simp [sessionPlan, h]

theorem jsParseInt_nil : jsParseInt [] = none := by decide

theorem jsParseInt_all : jsParseInt ("all".toList) = none := by decide

/-- C6: the Session Plan is the first `min(target, table length)`
elements of the shuffled table in shuffle order; the sentinel `"all"`,
an absent parameter, a non-numeric parameter and a parse result `≤ 0`
are all treated as unbounded (the full table); a target larger than the
table returns the full shuffled table (no error, no padding); an empty
table yields an empty plan. -/
theorem c6_session_plan (α : Type) (ordered : List α) (nParam : List Char)
    (k : Int) :
    sessionPlan ordered ("all".toList) = ordered ∧
    sessionPlan ordered [] = ordered ∧
    (jsParseInt nParam = none → sessionPlan ordered nParam = ordered) ∧
    (jsParseInt nParam = some k → k ≤ 0 →
      sessionPlan ordered nParam = ordered) ∧
    (jsParseInt nParam = some k → 0 < k →
      sessionPlan ordered nParam = ordered.take (min k.toNat ordered.length)) ∧
    (jsParseInt nParam = some k → 0 < k → ordered.length ≤ k.toNat →
      sessionPlan ordered nParam = ordered) ∧
    sessionPlan ([] : List α) nParam = [] := by
  have hall : targetOf ("all".toList) = none := by
    simp [targetOf]
  have hnil : targetOf [] = none := by
    simp [targetOf]
  refine ⟨targetOf_none_full ordered _ hall, targetOf_none_full ordered _ hnil,
    ?_, ?_, ?_, ?_, ?_⟩
  · intro h
    refine targetOf_none_full ordered nParam ?_
    unfold targetOf
    split
    · rw [h]
    · rfl
  · intro h hk
    refine targetOf_none_full ordered nParam ?_
    unfold targetOf
    split
    · rw [h]
      simp [Int.not_lt.mpr hk]
    · rfl
  · intro h hk
    have hne : nParam ≠ [] := by
      intro he
      rw [he, jsParseInt_nil] at h
      exact Option.noConfusion h
    have hna : nParam ≠ "all".toList := by
      intro he
      rw [he, jsParseInt_all] at h
      exact Option.noConfusion h
    have ht : targetOf nParam = some k.toNat := by
      unfold targetOf
      rw [if_pos ⟨hne, hna⟩, h]
      simp [hk]
    exact targetOf_some_take ordered nParam k.toNat ht
  · intro h hk hlen
    have ht : targetOf nParam = some k.toNat := by
      have hne : nParam ≠ [] := by
        intro he
        rw [he, jsParseInt_nil] at h
        exact Option.noConfusion h
      have hna : nParam ≠ "all".toList := by
        intro he
        rw [he, jsParseInt_all] at h
        exact Option.noConfusion h
      unfold targetOf
      rw [if_pos ⟨hne, hna⟩, h]
      simp [hk]
    rw [targetOf_some_take ordered nParam k.toNat ht,
      Nat.min_eq_right hlen, List.take_length]
  · cases h : targetOf nParam with
    | some t => simp [sessionPlan, h]
    | none => simp [sessionPlan, h]

theorem c6_witness :
    sessionPlan ([10, 20, 30] : List Nat) ("2".toList) = [10, 20] ∧
    sessionPlan ([10, 20, 30] : List Nat) ("-1".toList) = [10, 20, 30] ∧
    sessionPlan ([10, 20, 30] : List Nat) ("5".toList) = [10, 20, 30] ∧
    sessionPlan ([10, 20, 30] : List Nat) ("x".toList) = [10, 20, 30] := by
  refine ⟨?_, ?_, ?_, ?_⟩
  · have := (c6_session_plan Nat [10, 20, 30] ("2".toList) 2).2.2.2.2.1
      (by decide) (by decide)
    simpa using this
  · exact (c6_session_plan Nat [10, 20, 30] ("-1".toList) (-1)).2.2.2.1
      (by decide) (by decide)
  · exact (c6_session_plan Nat [10, 20, 30] ("5".toList) 5).2.2.2.2.2.1
      (by decide) (by decide) (by decide)
  · exact (c6_session_plan Nat [10, 20, 30] ("x".toList) 0).2.2.1 (by decide)
